import Mathlib

/-! The command tckedit: consensus header merge, step-size update, and the bounds test of the
interpolator base class.

A shallow embedding of `cmd/tckedit.cpp` (`update_output_step_size`, `run`) and of
`lib/image/interp/base.h` (`Interp::Base`), followed by theorems about them.

Conventions of the embedding

* `std::map<std::string, std::string>` is an association list with pairwise distinct keys
  (`StdMap`); iteration visits `entries` front to back.
* `size_t` is a natural number reduced modulo `2 ^ 64`.
* C++ `float` arithmetic is a parameter (`CountOps`, `StepOps`) of the command model; the
  instance `binary32` and the type `F32` give the IEEE 754 single precision semantics of the
  operations that are evaluated on concrete inputs.
-/

namespace MR

/-! ## Definitions: `std::map` and `Properties` -/

/-- Lookup in an association list: the mapped value of the first entry with key `k`. -/
def assoc_find (k : String) : List (String × String) → Option String
  | [] => none
  | e :: t => if e.1 = k then some e.2 else assoc_find k t

/-- Overwrite the mapped value of every entry with key `k`, keeping keys and order. -/
def assoc_assign (k v : String) (l : List (String × String)) : List (String × String) :=
  l.map (fun e => (e.1, if e.1 = k then v else e.2))

/-- A `std::map<std::string, std::string>`: entries with pairwise distinct keys. -/
structure StdMap where
  entries : List (String × String)
  nodup : (entries.map Prod.fst).Nodup

namespace StdMap

/-- The empty map (default construction). -/
def empty : StdMap := ⟨[], List.nodup_nil⟩

/-- The call `m.find (k)`: `none` stands for `m.end()`, `some v` for an iterator at `(k, v)`. -/
def find (m : StdMap) (k : String) : Option String := assoc_find k m.entries

/-- The call `m.insert ((k, v))`: adds the entry unless the key is already present. -/
def insert (m : StdMap) (k v : String) : StdMap :=
  if h : k ∈ m.entries.map Prod.fst then m
  else
    ⟨m.entries ++ [(k, v)], by
      rw [List.map_append, List.nodup_append]
      refine ⟨m.nodup, List.nodup_singleton _, ?_⟩
      intro a ha hb
      simp at hb
      exact h (hb ▸ ha)⟩

/-- Assignment through an iterator at key `k` (`it->second = v`). -/
def assign (m : StdMap) (k v : String) : StdMap :=
  ⟨assoc_assign k v m.entries, by
    unfold assoc_assign
    rw [List.map_map]
    exact m.nodup⟩

/-- The expression `m[k]`: a reference to the mapped value, default-inserting the empty string
when the key is absent. Returns the map after the call and the value referred to. -/
def index (m : StdMap) (k : String) : StdMap × String :=
  match m.find k with
  | some v => (m, v)
  | none => (m.insert k "", "")

/-- The statement `m[k] = v`. -/
def index_assign (m : StdMap) (k v : String) : StdMap :=
  ((m.index k).1).assign k v

end StdMap

/-- Modelled from the spec: the class `Properties` (dwi/tractography/properties.h) is not among
the sources. Per the spec it is a key-to-value mapping with unique keys, plus an ordered list
of comment strings, plus ROI specifications; `run` uses it as a string-to-string `std::map`
with a `comments` vector. -/
structure Properties where
  map : StdMap
  comments : List String
  roi : List (String × String)

namespace Properties

/-- A default-constructed `Properties`. -/
def empty : Properties := ⟨StdMap.empty, [], []⟩

/-- Lookup `properties.find (k)`. -/
def find (p : Properties) (k : String) : Option String := p.map.find k

end Properties

/-! ## Definitions: the arithmetic of `float` as a parameter -/

/-- The `float` and `size_t` conversions used by the header loop of `run`. The helper
`to<float>` (lib/mrtrix.h) is not among the sources and is a field here, next to the built-in
conversions between `size_t` and `float` and the `float` addition. -/
structure CountOps where
  F : Type
  to_float : String → F
  of_size : Nat → F
  add : F → F → F
  to_size : F → Nat

/-- The `float` operations of `update_output_step_size`: the literal `0.0`, the conversion
`float (int)`, product, quotient, and the built-in conversion of a `float` to `char`
(truncation toward zero, a byte read here as the character with that code). -/
structure StepOps (F : Type) where
  zero : F
  of_int : Int → F
  mul : F → F → F
  div : F → F → F
  to_char : F → Char

/-! ## Definitions: `cmd/tckedit.cpp` -/

/-- The statement `m[k] = x` for a `float` `x`. The mapped values are `std::string`, and the
assignment operator of `std::string` that takes a `float` is `operator= (char)`: the `float`
is converted to `char` and the string becomes that single character. -/
def StdMap.index_assign_float {F : Type} (S : StepOps F) (m : StdMap) (k : String) (x : F) :
    StdMap :=
  m.index_assign k (String.singleton (S.to_char x))

/-- The function `update_output_step_size` of tckedit.cpp. -/
def update_output_step_size {F : Type} (to_float : String → F) (S : StepOps F)
    (properties : Properties) (upsample_ratio downsample_ratio : Int) : Properties :=
  if upsample_ratio = 1 ∧ downsample_ratio = 1 then properties
  else
    let r : StdMap × F :=
      if properties.map.find "output_step_size" = none then
        if properties.map.find "step_size" = none then (properties.map, S.zero)
        else
          let a := properties.map.index "step_size"
          (a.1, to_float a.2)
      else
        let a := properties.map.index "output_step_size"
        (a.1, to_float a.2)
    { properties with
      map := r.1.index_assign_float S "output_step_size"
        (S.div (S.mul r.2 (S.of_int downsample_ratio)) (S.of_int upsample_ratio)) }

/-- The words of the spec for `base_step_size`: the numeric value of the prior
`output_step_size` if present, else that of the prior `step_size` if present, else `0`. -/
def base_step_size {F : Type} (to_float : String → F) (S : StepOps F) (properties : Properties) :
    F :=
  match properties.find "output_step_size" with
  | some v => to_float v
  | none =>
    match properties.find "step_size" with
    | some v => to_float v
    | none => S.zero

/-- The inner loop over `j` in `run`: whether the comment `i` already occurs in `comments`. -/
def comment_present (i : String) : List String → Bool
  | [] => false
  | j :: t => if i = j then true else comment_present i t

/-- The loop over `p.comments` in `run`: append each comment that is not present yet. -/
def merge_comments (comments p_comments : List String) : List String :=
  p_comments.foldl (fun acc i => if comment_present i acc then acc else acc ++ [i]) comments

/-- The variables live in the loop over the entries of one input header. -/
structure Scan where
  properties : Properties
  this_count : Nat
  this_total_count : Nat

/-- One iteration of the loop over the entries `i` of an input header `p` in `run`. -/
def scan_entry (C : CountOps) (s : Scan) (i : String × String) : Scan :=
  if i.1 = "count" then
    { s with this_count := C.to_size (C.to_float i.2) }
  else if i.1 = "total_count" then
    { s with this_total_count :=
        C.to_size (C.add (C.of_size s.this_total_count) (C.to_float i.2)) }
  else
    match s.properties.map.find i.1 with
    | none =>
      { s with properties := { s.properties with map := s.properties.map.insert i.1 i.2 } }
    | some existing =>
      if i.2 ≠ existing then
        { s with properties :=
            { s.properties with map := s.properties.map.assign i.1 "variable" } }
      else s

/-- The loop over the entries of the input header `p`, started with both counters at zero. -/
def scan_header (C : CountOps) (properties : Properties) (p : Properties) : Scan :=
  p.map.entries.foldl (scan_entry C) ⟨properties, 0, 0⟩

/-- The variables of `run` that the loop over the input files updates. -/
structure LoopState where
  properties : Properties
  count : Nat
  input_file_list : List String

/-- The body of the loop over `file_index` in `run` up to the end of the loop over the
entries of the header: `path` is `argument[file_index]` and `read_header path` is the header
that the `Reader` loads into `p`. -/
def header_scan (C : CountOps) (read_header : String → Properties) (st : LoopState)
    (path : String) : Scan :=
  let p := read_header path
  let properties : Properties :=
    { st.properties with comments := merge_comments st.properties.comments p.comments }
  scan_header C properties p

/-- One iteration of the loop over `file_index` in `run`: after the entries of the header,
`count += this_count`; the value of `this_total_count` is not used. -/
def header_step (C : CountOps) (read_header : String → Properties) (st : LoopState)
    (path : String) : LoopState :=
  let s := header_scan C read_header st path
  { properties := s.properties
    count := (st.count + s.this_count) % 2 ^ 64
    input_file_list := st.input_file_list ++ [path] }

/-- The state before the first input file: empty properties, `count = 0`, no file listed. -/
def LoopState.init : LoopState := ⟨Properties.empty, 0, []⟩

/-- The loop over `file_index` from `0` up to `num_inputs`, reading `argument[file_index]`. -/
def header_loop (C : CountOps) (read_header : String → Properties) (argument : List String)
    (num_inputs : Nat) : LoopState :=
  (List.range num_inputs).foldl
    (fun st file_index => header_step C read_header st (argument.getD file_index ""))
    LoopState.init

/-- The parsed command line: the arguments declared by `usage` and, per option name, the first
argument of each occurrence of the option (`get_options (name)`). -/
structure CommandLine where
  tracks_in : List String
  tracks_out : String
  tck_weights_in : List String
  upsample : List Int
  downsample : List Int
  number : List Nat
  skip : List Nat

/-- The global `argument`: the input track files followed by the output track file. -/
def CommandLine.argument (cl : CommandLine) : List String := cl.tracks_in ++ [cl.tracks_out]

/-- What `run` takes from the rest of the library: the header a `Reader` loads from a path, and
the effect of `load_rois` and of `Editing::load_properties` on the properties. -/
structure Env where
  read_header : String → Properties
  load_rois : Properties → Properties
  load_properties : Properties → Properties

/-- The externally visible steps of `run`, in the order they happen. -/
inductive Event where
  | open_header (path : String)
  | construct_loader (input_file_list : List String)
  | construct_worker (properties : Properties) (upsample downsample : Int)
  | construct_receiver (output_path : String) (properties : Properties)
      (count number skip : Nat)
  | run_queue

/-- The result of `run`: the steps taken and the exception thrown, if any. -/
structure Outcome where
  events : List Event
  exception : Option String

/-- The value `opt.size() ? opt[0][0] : dflt` of an option. -/
def option_or {α : Type} (opt : List α) (dflt : α) : α :=
  match opt with
  | [] => dflt
  | v :: _ => v

/-- The function `run` of tckedit.cpp. -/
def run (C : CountOps) (S : StepOps C.F) (env : Env) (cl : CommandLine) : Outcome :=
  let num_inputs := cl.argument.length - 1
  let output_path := cl.argument.getD num_inputs ""
  if cl.tck_weights_in.length ≠ 0 ∧ num_inputs > 1 then
    ⟨[], some "Cannot use per-streamline weighting with multiple input files"⟩
  else
    let st := header_loop C env.read_header cl.argument num_inputs
    let properties := env.load_rois st.properties
    let properties := env.load_properties properties
    let upsample := option_or cl.upsample 1
    let downsample := option_or cl.downsample 1
    let number := option_or cl.number 0
    let skip := option_or cl.skip 0
    let worker_properties := properties
    let properties := update_output_step_size C.to_float S properties upsample downsample
    ⟨st.input_file_list.map Event.open_header ++
      [Event.construct_loader st.input_file_list,
       Event.construct_worker worker_properties upsample downsample,
       Event.construct_receiver output_path properties st.count number skip,
       Event.run_queue], none⟩

/-- The properties the `Worker` was constructed with, if it was constructed. -/
def worker_properties : List Event → Option (Properties × Int × Int)
  | [] => none
  | Event.construct_worker p u d :: _ => some (p, u, d)
  | _ :: t => worker_properties t

/-- The arguments the `Receiver` was constructed with, if it was constructed. -/
def receiver_arguments : List Event → Option (String × Properties × Nat × Nat × Nat)
  | [] => none
  | Event.construct_receiver o p c n s :: _ => some (o, p, c, n, s)
  | _ :: t => receiver_arguments t

/-- The count the `Receiver` was constructed with, if it was constructed. -/
def receiver_count (events : List Event) : Option Nat :=
  (receiver_arguments events).map (fun a => a.2.2.1)

/-- The value that the loop over the entries of header `p` leaves in `this_count`: the
conversion of the `count` value of `p`, and `0` when `p` has no `count`. -/
def converted_count (C : CountOps) (p : Properties) : Nat :=
  match p.find "count" with
  | some v => C.to_size (C.to_float v)
  | none => 0

/-- The headers of the first `num_inputs` input files, in file order. -/
def input_headers (read_header : String → Properties) (argument : List String)
    (num_inputs : Nat) : List Properties :=
  (List.range num_inputs).map (fun file_index => read_header (argument.getD file_index ""))

/-- The effect on the consensus value `cur` of a key of one input header that holds the value
`v` for it: copied when absent, kept when equal, `"variable"` when different. -/
def consensus_value (cur : Option String) (v : String) : Option String :=
  match cur with
  | none => some v
  | some existing => if v ≠ existing then some "variable" else some existing

/-- The effect on the consensus value of a key of one input header that may hold the key. -/
def consensus_step (cur : Option String) (held : Option String) : Option String :=
  match held with
  | none => cur
  | some v => consensus_value cur v

/-- The words of the spec for the comment list: every string of `l` kept at its first
occurrence only, in first-seen order. -/
def first_occurrences : List String → List String
  | [] => []
  | x :: t => x :: (first_occurrences t).filter (fun y => decide (y ≠ x))

/-! ## Definitions: IEEE 754 single precision -/

/-- A value of the C++ type `float` (IEEE 754 binary32). Every finite `float` is an integer
multiple of `2 ^ (-149)`; `fin k` is the number `k * 2 ^ (-149)`. The sign of zero, which none
of the operations below observes, is not represented. -/
inductive F32 where
  | nan
  | inf (negative : Bool)
  | fin (k : Int)
  deriving DecidableEq

/-- The quotient `a / b` of natural numbers rounded to the nearest integer, ties to even. -/
def round_half_even (a b : Nat) : Nat :=
  let q := a / b
  let r := a % b
  if 2 * r < b then q
  else if b < 2 * r then q + 1
  else if q % 2 = 0 then q
  else q + 1

namespace F32

/-- The number of low-order bits that rounding drops from a magnitude `a` of at least
`2 ^ 24` units: the largest `s` among `1, ..., fuel` with `2 ^ (s + 23) ≤ a`, or `0`. -/
def dropped_bits (a : Nat) : Nat → Nat
  | 0 => 0
  | s + 1 => if 2 ^ (s + 24) ≤ a then s + 1 else dropped_bits a s

/-- Rounding to nearest, ties to even, of the exact number `k * 2 ^ (-149)` to a `float`:
numbers below `2 ^ (-125)` in magnitude lie on the grid already; larger ones keep 24
significant bits, and magnitudes that round to `2 ^ 128` or more overflow to an infinity
(which every magnitude of `2 ^ 277` units or more does, so 254 dropped bits suffice). -/
def round (k : Int) : F32 :=
  let a := k.natAbs
  if a < 2 ^ 24 then fin k
  else
    let sh := dropped_bits a 254
    let r := round_half_even a (2 ^ sh) * 2 ^ sh
    if 2 ^ 149 * 2 ^ 128 ≤ r then inf (decide (k < 0))
    else fin (if k < 0 then -(r : Int) else (r : Int))

/-- The number one: `2 ^ 149` units of `2 ^ (-149)`. -/
def one : F32 := fin (2 ^ 149)

/-- The constant `-0.5`. -/
def neg_half : F32 := fin (-(2 ^ 148))

/-- The value of an integer `n` minus `0.5`, computed in `double` (exactly) and rounded on
assignment to a `float`. -/
def of_int_minus_half (n : Int) : F32 := round ((2 * n - 1) * 2 ^ 148)

/-- The comparison `x < y`; false when either side is a NaN. -/
def lt : F32 → F32 → Bool
  | nan, _ => false
  | _, nan => false
  | inf a, inf b => a && !b
  | inf a, fin _ => a
  | fin _, inf b => !b
  | fin a, fin b => decide (a < b)

/-- The comparison `x > y`. -/
def gt (x y : F32) : Bool := lt y x

/-- The sum `x + y`. -/
def add : F32 → F32 → F32
  | nan, _ => nan
  | _, nan => nan
  | inf a, inf b => if a = b then inf a else nan
  | inf a, fin _ => inf a
  | fin _, inf b => inf b
  | fin a, fin b => round (a + b)

/-- The difference `x - y`. -/
def sub : F32 → F32 → F32
  | nan, _ => nan
  | _, nan => nan
  | inf a, inf b => if a = b then nan else inf a
  | inf a, fin _ => inf a
  | fin _, inf b => inf (!b)
  | fin a, fin b => round (a - b)

/-- The function `std::floor` on `float`, which `Math::floor` forwards to. -/
def floor : F32 → F32
  | nan => nan
  | inf a => inf a
  | fin k => fin (k / 2 ^ 149 * 2 ^ 149)

/-- Whether `x` is a value of the type `float`: a NaN, an infinity, or a finite number that
rounding leaves unchanged. -/
def is_float : F32 → Bool
  | fin k => decide (round k = fin k)
  | _ => true

/-- The conversion of a `size_t` to `float`. -/
def of_size (n : Nat) : F32 := round ((n : Int) * 2 ^ 149)

/-- The conversion of a `float` to `size_t`: truncation toward zero. The C++ standard leaves
the conversion undefined for a NaN and for values whose truncation is not a `size_t`; the
model returns `0` there, and no theorem below depends on it. -/
def to_size : F32 → Nat
  | fin k => if 0 ≤ k ∧ k / 2 ^ 149 < 2 ^ 64 then (k / 2 ^ 149).toNat else 0
  | _ => 0

end F32

/-- The value of a string of decimal digits read after the digits worth `acc`; `none` when
some character is not a decimal digit. -/
def digits_value : List Char → Nat → Option Nat
  | [], acc => some acc
  | c :: t, acc =>
    if 48 ≤ c.toNat ∧ c.toNat ≤ 57 then digits_value t (10 * acc + (c.toNat - 48)) else none

/-- The non-negative integer written by `s`, when `s` is a non-empty string of decimal
digits. -/
def numeral (s : String) : Option Nat :=
  match s.data with
  | [] => none
  | cs => digits_value cs 0

/-- Modelled from the spec: the helper `to<float>` (lib/mrtrix.h) is not among the sources. The
spec reads header values such as `count` as numbers, and `to<float>` extracts a `float` from
the text: for a plain decimal numeral that is the `float` nearest to the integer written.
Every other text is outside this model and is mapped to `nan`; so is a numeral beyond the
range of `float`, which the rounding takes to an infinity. -/
def to_float_numeral (s : String) : F32 :=
  match numeral s with
  | some n => F32.round ((n : Int) * 2 ^ 149)
  | none => F32.nan

/-- The header-loop arithmetic in IEEE 754 single precision. -/
def binary32 : CountOps where
  F := F32
  to_float := to_float_numeral
  of_size := F32.of_size
  add := F32.add
  to_size := F32.to_size

/-- The `count` a header declares when it is a plain decimal numeral, and `0` otherwise. -/
def count_value (p : Properties) : Nat :=
  match p.find "count" with
  | some s => (numeral s).getD 0
  | none => 0

/-! ## Definitions: `lib/image/interp/base.h` -/

/-- A `Point<float>`: three coordinates. -/
abbrev Point := Fin 3 → F32

/-- A 3 x 4 array of `float`. -/
abbrev Matrix34 := Fin 3 → Fin 4 → F32

/-- What `Interp::Base` uses of its template parameter `InfoType`: the image dimensions
`dim (i)` and the four 4 x 4 matrices that the functions of `Transform` compute from it. -/
structure InfoType where
  dim : Fin 3 → Int
  scanner2voxel : Fin 4 → Fin 4 → F32
  voxel2scanner : Fin 4 → Fin 4 → F32
  image2scanner : Fin 4 → Fin 4 → F32
  scanner2image : Fin 4 → Fin 4 → F32

/-- The data members of `Interp::Base`, with the `InfoType` it derives from. -/
structure Base where
  info : InfoType
  S2V : Matrix34
  V2S : Matrix34
  I2S : Matrix34
  S2I : Matrix34
  bounds : Fin 3 → F32
  out_of_bounds : Bool

/-- The member `set_matrix`: the first three rows of `MV`. -/
def set_matrix (MV : Fin 4 → Fin 4 → F32) : Matrix34 :=
  fun i j => MV ⟨i.val, by omega⟩ j

namespace Base

/-- The constructor `Base (parent)`. -/
def construct (parent : InfoType) : Base where
  info := parent
  out_of_bounds := true
  bounds := fun i => F32.of_int_minus_half (parent.dim i)
  S2V := set_matrix parent.scanner2voxel
  V2S := set_matrix parent.voxel2scanner
  I2S := set_matrix parent.image2scanner
  S2I := set_matrix parent.scanner2image

/-- The member `operator!`: true if the current position is out of bounds. -/
def op_not (b : Base) : Bool := b.out_of_bounds

/-- The member `set (pos)`: the object after the call and the point returned. -/
def set (b : Base) (pos : Point) : Base × Point :=
  if F32.lt (pos 0) F32.neg_half || F32.gt (pos 0) (b.bounds 0) ||
     F32.lt (pos 1) F32.neg_half || F32.gt (pos 1) (b.bounds 1) ||
     F32.lt (pos 2) F32.neg_half || F32.gt (pos 2) (b.bounds 2) then
    ({ b with out_of_bounds := true }, fun _ => F32.nan)
  else
    ({ b with out_of_bounds := false }, fun i => F32.sub (pos i) (F32.floor (pos i)))

end Base

/-! ## Definitions: concrete inputs for the worked examples -/

/-- A header with the given entries and comments and no ROI. -/
def Properties.of_entries (l : List (String × String)) (h : (l.map Prod.fst).Nodup)
    (comments : List String) : Properties :=
  ⟨⟨l, h⟩, comments, []⟩

/-- The header of the example file `a.tck`. -/
def file_a : Properties :=
  Properties.of_entries [("count", "100"), ("key", "A"), ("total_count", "10")] (by decide)
    ["first", "shared"]

/-- The header of the example file `b.tck`. -/
def file_b : Properties :=
  Properties.of_entries [("count", "50"), ("key", "B"), ("total_count", "20")] (by decide)
    ["shared", "second"]

/-- Example properties of a tracking run with step size `0.5`. -/
def tracked : Properties :=
  Properties.of_entries [("method", "iFOD2"), ("step_size", "0.5")] (by decide) ["note"]

/-- The header of the example file `big.tck`, with `2 ^ 24 + 1` streamlines. -/
def file_big : Properties :=
  Properties.of_entries [("count", "16777217")] (by decide) []

/-- An example file system: the header read from each path. -/
def example_read : String → Properties :=
  fun path => if path = "a.tck" then file_a else if path = "b.tck" then file_b
    else if path = "big.tck" then file_big else Properties.empty

/-- An example environment: the example file system, with no ROI and no editing option to
fold into the properties. -/
def example_env : Env := ⟨example_read, fun p => p, fun p => p⟩

/-- The command line `tckedit a.tck b.tck out.tck`. -/
def example_command : CommandLine := ⟨["a.tck", "b.tck"], "out.tck", [], [], [], [], []⟩

/-- The command line `tckedit big.tck out.tck`. -/
def big_command : CommandLine := ⟨["big.tck"], "out.tck", [], [], [], [], []⟩

/-- An example image of 10 x 10 x 10 voxels; the transforms play no part in the bounds test
and are zero matrices. -/
def example_image : InfoType :=
  ⟨fun _ => 10, fun _ _ => F32.fin 0, fun _ _ => F32.fin 0, fun _ _ => F32.fin 0,
    fun _ _ => F32.fin 0⟩

/-- An example image whose first dimension is `2 ^ 24 + 2`. -/
def long_image : InfoType :=
  ⟨fun i => if i = 0 then 16777218 else 10, fun _ _ => F32.fin 0, fun _ _ => F32.fin 0,
    fun _ _ => F32.fin 0, fun _ _ => F32.fin 0⟩

/-- The position `(-2 ^ (-30), 0, 0)`. -/
def pos_tiny : Point := fun i => if i = 0 then F32.fin (-(2 ^ 119)) else F32.fin 0

/-- The position `(16777218, 0, 0)`. -/
def pos_far : Point := fun i => if i = 0 then F32.fin (16777218 * 2 ^ 149) else F32.fin 0

/-- The position `(NaN, 0, 0)`. -/
def pos_nan : Point := fun i => if i = 0 then F32.nan else F32.fin 0

/-- The position `(0.25, 1.5, 9.5)`. -/
def pos_inside : Point :=
  fun i => if i = 0 then F32.fin (2 ^ 147) else if i = 1 then F32.fin (3 * 2 ^ 148)
    else F32.fin (19 * 2 ^ 148)

/-! ## Lemmas: association lists and `std::map` -/

theorem assoc_find_eq_none {k : String} {l : List (String × String)} :
    assoc_find k l = none ↔ k ∉ l.map Prod.fst := by
  induction l with
  | nil => simp [assoc_find]
  | cons e t ih =>
    by_cases h : e.1 = k
    · simp [assoc_find, h]
    · have h2 : ¬ k = e.1 := fun h3 => h h3.symm
      simp [assoc_find, h, h2, ih]

theorem assoc_find_append (k : String) (l r : List (String × String)) :
    assoc_find k (l ++ r) = (assoc_find k l).orElse (fun _ => assoc_find k r) := by
  induction l with
  | nil => simp [assoc_find]
  | cons e t ih =>
    by_cases h : e.1 = k
    · simp [assoc_find, h]
    · simp [assoc_find, h, ih]

theorem assoc_find_assign (k v k2 : String) (l : List (String × String)) :
    assoc_find k2 (assoc_assign k v l)
      = if k2 = k then (assoc_find k2 l).map (fun _ => v) else assoc_find k2 l := by
  induction l with
  | nil => simp [assoc_find, assoc_assign]
  | cons e t ih =>
    have ih2 : assoc_find k2 (List.map (fun e => (e.1, if e.1 = k then v else e.2)) t)
        = if k2 = k then (assoc_find k2 t).map (fun _ => v) else assoc_find k2 t := ih
    by_cases h : e.1 = k2
    · by_cases h2 : k2 = k
      · subst h2; simp [assoc_find, assoc_assign, h]
      · have h3 : ¬ e.1 = k := fun h4 => h2 (h ▸ h4)
        simp [assoc_find, assoc_assign, h, h2, h3]
    · simp only [assoc_find, assoc_assign, List.map_cons, h, if_false]
      exact ih2

theorem StdMap.find_empty (k : String) : StdMap.empty.find k = none := rfl

theorem StdMap.find_insert (m : StdMap) (k v k2 : String) :
    (m.insert k v).find k2
      = if m.find k = none ∧ k2 = k then some v else m.find k2 := by
  unfold StdMap.insert
  by_cases h : k ∈ m.entries.map Prod.fst
  · have h2 : ¬ m.find k = none := fun h3 => (assoc_find_eq_none.mp h3) h
    simp [h, h2]
  · have h2 : m.find k = none := assoc_find_eq_none.mpr h
    rw [dif_neg h]
    simp only [StdMap.find, assoc_find_append]
    by_cases h3 : k2 = k
    · subst h3
      have h4 : assoc_find k2 m.entries = none := h2
      simp [h4, assoc_find]
    · have h4 : ¬ k = k2 := fun h5 => h3 h5.symm
      have h5 : assoc_find k2 [(k, v)] = none := by simp [assoc_find, h4]
      rw [h5]
      simp only [h3, and_false, if_false]
      cases assoc_find k2 m.entries <;> rfl

theorem StdMap.find_assign (m : StdMap) (k v k2 : String) :
    (m.assign k v).find k2
      = if k2 = k then (m.find k2).map (fun _ => v) else m.find k2 :=
  assoc_find_assign k v k2 m.entries

theorem StdMap.ext_entries {a b : StdMap} (h : a.entries = b.entries) : a = b := by
  cases a; cases b; cases h; rfl

theorem StdMap.index_of_find {m : StdMap} {k v : String} (h : m.find k = some v) :
    m.index k = (m, v) := by
  unfold StdMap.index
  rw [h]

theorem StdMap.find_index_assign (m : StdMap) (k v k2 : String) :
    (m.index_assign k v).find k2 = if k2 = k then some v else m.find k2 := by
  unfold StdMap.index_assign StdMap.index
  cases h : m.find k with
  | none =>
    by_cases h2 : k2 = k
    · subst h2; simp [StdMap.find_assign, StdMap.find_insert, h]
    · simp [StdMap.find_assign, StdMap.find_insert, h, h2]
  | some w =>
    by_cases h2 : k2 = k
    · subst h2; simp [StdMap.find_assign, h]
    · simp [StdMap.find_assign, h2]

/-! ## Lemmas: the loop over the entries of one header -/

theorem scan_entry_find (C : CountOps) (s : Scan) (i : String × String) (k : String) :
    (scan_entry C s i).properties.find k
      = if i.1 = k ∧ i.1 ≠ "count" ∧ i.1 ≠ "total_count"
        then consensus_value (s.properties.find k) i.2 else s.properties.find k := by
  unfold scan_entry
  by_cases hc : i.1 = "count"
  · simp [hc]
  · by_cases ht : i.1 = "total_count"
    · simp [ht]
    · simp only [hc, ht, if_false, ne_eq, not_false_eq_true, and_true]
      cases hf : s.properties.map.find i.1 with
      | none =>
        by_cases hk : i.1 = k
        · subst hk
          simp [Properties.find, StdMap.find_insert, hf, consensus_value]
        · have hk2 : ¬ k = i.1 := fun h => hk h.symm
          simp [Properties.find, StdMap.find_insert, hk, hk2]
      | some existing =>
        by_cases hv : i.2 = existing
        · by_cases hk : i.1 = k
          · subst hk
            simp [Properties.find, hf, consensus_value, hv]
          · simp [hv, hk]
        · by_cases hk : i.1 = k
          · subst hk
            simp [Properties.find, StdMap.find_assign, hf, consensus_value, hv]
          · have hk2 : ¬ k = i.1 := fun h => hk h.symm
            simp [Properties.find, StdMap.find_assign, hv, hk, hk2]

theorem scan_entry_comments (C : CountOps) (s : Scan) (i : String × String) :
    (scan_entry C s i).properties.comments = s.properties.comments := by
  unfold scan_entry
  split
  · rfl
  · split
    · rfl
    · split
      · rfl
      · split <;> rfl

theorem scan_entry_this_count (C : CountOps) (s : Scan) (i : String × String) :
    (scan_entry C s i).this_count
      = if i.1 = "count" then C.to_size (C.to_float i.2) else s.this_count := by
  unfold scan_entry
  split
  · rfl
  · split
    · rfl
    · split
      · rfl
      · split <;> rfl

theorem scan_fold_comments (C : CountOps) (l : List (String × String)) (s : Scan) :
    (l.foldl (scan_entry C) s).properties.comments = s.properties.comments := by
  induction l generalizing s with
  | nil => rfl
  | cons e t ih => rw [List.foldl_cons, ih, scan_entry_comments]

theorem scan_fold_find_absent (C : CountOps) (l : List (String × String)) (s : Scan)
    (k : String) (h : k ∉ l.map Prod.fst) :
    (l.foldl (scan_entry C) s).properties.find k = s.properties.find k := by
  induction l generalizing s with
  | nil => rfl
  | cons e t ih =>
    simp only [List.map_cons, List.mem_cons, not_or] at h
    rw [List.foldl_cons, ih _ h.2, scan_entry_find]
    have h2 : ¬ e.1 = k := fun h3 => h.1 h3.symm
    simp [h2]

theorem scan_fold_find (C : CountOps) (l : List (String × String))
    (hnd : (l.map Prod.fst).Nodup) (s : Scan) (k : String) :
    (l.foldl (scan_entry C) s).properties.find k
      = if k = "count" ∨ k = "total_count" then s.properties.find k
        else consensus_step (s.properties.find k) (assoc_find k l) := by
  induction l generalizing s with
  | nil => simp [assoc_find, consensus_step]
  | cons e t ih =>
    simp only [List.map_cons, List.nodup_cons] at hnd
    by_cases hk : e.1 = k
    · subst hk
      rw [List.foldl_cons, scan_fold_find_absent C t _ _ hnd.1, scan_entry_find]
      by_cases hc : e.1 = "count"
      · simp [hc]
      · by_cases ht : e.1 = "total_count"
        · simp [ht]
        · simp [hc, ht, assoc_find, consensus_step]
    · rw [List.foldl_cons, ih hnd.2, scan_entry_find]
      simp [hk, assoc_find]

theorem scan_fold_this_count_absent (C : CountOps) (l : List (String × String)) (s : Scan)
    (h : "count" ∉ l.map Prod.fst) :
    (l.foldl (scan_entry C) s).this_count = s.this_count := by
  induction l generalizing s with
  | nil => rfl
  | cons e t ih =>
    simp only [List.map_cons, List.mem_cons, not_or] at h
    rw [List.foldl_cons, ih _ h.2, scan_entry_this_count]
    have h2 : ¬ e.1 = "count" := fun h3 => h.1 h3.symm
    simp [h2]

theorem scan_fold_this_count (C : CountOps) (l : List (String × String))
    (hnd : (l.map Prod.fst).Nodup) (s : Scan) :
    (l.foldl (scan_entry C) s).this_count
      = match assoc_find "count" l with
        | some v => C.to_size (C.to_float v)
        | none => s.this_count := by
  induction l generalizing s with
  | nil => rfl
  | cons e t ih =>
    simp only [List.map_cons, List.nodup_cons] at hnd
    by_cases hk : e.1 = "count"
    · rw [List.foldl_cons, scan_fold_this_count_absent C t _ (hk ▸ hnd.1),
        scan_entry_this_count]
      simp [hk, assoc_find]
    · rw [List.foldl_cons, ih hnd.2, scan_entry_this_count]
      simp [hk, assoc_find]

/-! ## Lemmas: the loop over the input files -/

theorem header_step_find (C : CountOps) (read_header : String → Properties) (st : LoopState)
    (path k : String) :
    (header_step C read_header st path).properties.find k
      = if k = "count" ∨ k = "total_count" then st.properties.find k
        else consensus_step (st.properties.find k) ((read_header path).find k) := by
  unfold header_step header_scan scan_header
  simp only
  rw [scan_fold_find C _ (read_header path).map.nodup]
  rfl

theorem header_step_comments (C : CountOps) (read_header : String → Properties)
    (st : LoopState) (path : String) :
    (header_step C read_header st path).properties.comments
      = merge_comments st.properties.comments (read_header path).comments := by
  unfold header_step header_scan scan_header
  simp only
  rw [scan_fold_comments]

theorem header_step_count (C : CountOps) (read_header : String → Properties) (st : LoopState)
    (path : String) :
    (header_step C read_header st path).count
      = (st.count + match (read_header path).find "count" with
                    | some v => C.to_size (C.to_float v)
                    | none => 0) % 2 ^ 64 := by
  unfold header_step header_scan scan_header
  simp only
  rw [scan_fold_this_count C _ (read_header path).map.nodup]
  rfl

theorem header_step_files (C : CountOps) (read_header : String → Properties) (st : LoopState)
    (path : String) :
    (header_step C read_header st path).input_file_list = st.input_file_list ++ [path] := rfl

/-- The loop of `run` is the left fold of `header_step` over the paths
`argument[0], ..., argument[num_inputs - 1]`. -/
theorem header_loop_eq_foldl (C : CountOps) (read_header : String → Properties)
    (argument : List String) (num_inputs : Nat) :
    header_loop C read_header argument num_inputs
      = ((List.range num_inputs).map (fun i => argument.getD i "")).foldl
          (header_step C read_header) LoopState.init := by
  unfold header_loop
  rw [List.foldl_map]

theorem header_loop_succ (C : CountOps) (read_header : String → Properties)
    (argument : List String) (n : Nat) :
    header_loop C read_header argument (n + 1)
      = header_step C read_header (header_loop C read_header argument n)
          (argument.getD n "") := by
  unfold header_loop
  rw [List.range_succ, List.foldl_append]
  rfl

theorem input_headers_succ (read_header : String → Properties) (argument : List String)
    (n : Nat) :
    input_headers read_header argument (n + 1)
      = input_headers read_header argument n ++ [read_header (argument.getD n "")] := by
  unfold input_headers
  rw [List.range_succ, List.map_append]
  rfl

/-! ## Lemmas: the consensus value of one key -/

theorem consensus_step_variable (held : Option String) :
    consensus_step (some "variable") held = some "variable" := by
  cases held with
  | none => rfl
  | some v =>
    by_cases h : v = "variable" <;> simp [consensus_step, consensus_value, h]

theorem consensus_foldl_none_iff (os : List (Option String)) (cur : Option String) :
    os.foldl consensus_step cur = none ↔ cur = none ∧ ∀ o ∈ os, o = none := by
  induction os generalizing cur with
  | nil => simp
  | cons o t ih =>
    rw [List.foldl_cons, ih]
    cases o with
    | none => simp [consensus_step]
    | some v =>
      cases cur with
      | none => simp [consensus_step, consensus_value]
      | some e => by_cases h : v = e <;> simp [consensus_step, consensus_value, h]

theorem consensus_foldl_same (os : List (Option String)) (v : String)
    (h : ∀ o ∈ os, o = none ∨ o = some v) :
    os.foldl consensus_step (some v) = some v := by
  induction os with
  | nil => rfl
  | cons o t ih =>
    rw [List.foldl_cons]
    have ht : ∀ o ∈ t, o = none ∨ o = some v := fun o ho => h o (List.mem_cons_of_mem _ ho)
    rcases h o (List.mem_cons_self _ _) with h1 | h1
    · subst h1; exact ih ht
    · subst h1
      simpa [consensus_step, consensus_value] using ih ht

theorem consensus_foldl_same_of_none (os : List (Option String)) (v : String)
    (h : ∀ o ∈ os, o = none ∨ o = some v) (hex : some v ∈ os) :
    os.foldl consensus_step none = some v := by
  induction os with
  | nil => simp at hex
  | cons o t ih =>
    rw [List.foldl_cons]
    have ht : ∀ o ∈ t, o = none ∨ o = some v := fun o ho => h o (List.mem_cons_of_mem _ ho)
    rcases h o (List.mem_cons_self _ _) with h1 | h1
    · subst h1
      have hex2 : some v ∈ t := by simpa using hex
      exact ih ht hex2
    · subst h1
      exact consensus_foldl_same t v ht

theorem consensus_foldl_cases (os : List (Option String)) (cur : Option String) :
    os.foldl consensus_step cur = some "variable" ∨
      ((∀ v, some v ∈ os → os.foldl consensus_step cur = some v) ∧
        (cur ≠ none → os.foldl consensus_step cur = cur)) := by
  induction os generalizing cur with
  | nil => right; simp
  | cons o t ih =>
    rw [List.foldl_cons]
    rcases ih (consensus_step cur o) with h | ⟨h1, h2⟩
    · exact Or.inl h
    · cases o with
      | none =>
        right
        refine ⟨fun v hv => h1 v (by simpa using hv), h2⟩
      | some v0 =>
        cases cur with
        | none =>
          right
          have h3 := h2 (by simp [consensus_step, consensus_value])
          refine ⟨fun v hv => ?_, fun hc => absurd rfl hc⟩
          rcases List.mem_cons.mp hv with hv1 | hv1
          · rw [h3, hv1]; rfl
          · exact h1 v hv1
        | some e =>
          by_cases hve : v0 = e
          · right
            subst hve
            have h3 := h2 (by simp [consensus_step, consensus_value])
            have h4 : consensus_step (some v0) (some v0) = some v0 := by
              simp [consensus_step, consensus_value]
            rw [h4] at h3
            refine ⟨fun v hv => ?_, fun _ => ?_⟩
            · rcases List.mem_cons.mp hv with hv1 | hv1
              · rw [hv1]; rw [h4]; exact h3
              · exact h1 v hv1
            · rw [h4]; exact h3
          · left
            have h3 := h2 (by simp [consensus_step, consensus_value, hve])
            have h4 : consensus_step (some e) (some v0) = some "variable" := by
              simp [consensus_step, consensus_value, hve]
            rw [h4] at h3 ⊢
            exact h3

theorem consensus_foldl_variable (os : List (Option String)) (cur : Option String)
    (v w : String) (hv : some v ∈ os) (hw : some w ∈ os) (hne : v ≠ w) :
    os.foldl consensus_step cur = some "variable" := by
  rcases consensus_foldl_cases os cur with h | ⟨h1, _⟩
  · exact h
  · have h2 := h1 v hv
    have h3 := h1 w hw
    rw [h2] at h3
    exact absurd (Option.some.inj h3) hne

theorem header_loop_find (C : CountOps) (read_header : String → Properties)
    (argument : List String) (num_inputs : Nat) (k : String)
    (hc : k ≠ "count") (ht : k ≠ "total_count") :
    (header_loop C read_header argument num_inputs).properties.find k
      = ((input_headers read_header argument num_inputs).map (fun p => p.find k)).foldl
          consensus_step none := by
  induction num_inputs with
  | zero => rfl
  | succ n ih =>
    rw [header_loop_succ, input_headers_succ, header_step_find, ih]
    simp [hc, ht, List.foldl_append]

/-! ## Theorems: the consensus merge of header keys -/

/-- Claim C1. Consensus merge of header keys in `run`: for every key `k` other than `count`
and `total_count`, after the loop over the input files the merged properties hold `k` iff
some input header holds `k`; the merged value is `v` when every input header that holds `k`
holds `v`; and it is `"variable"` when two input headers hold different values for `k`. -/
theorem consensus_merge_keys (C : CountOps) (read_header : String → Properties)
    (argument : List String) (num_inputs : Nat) (k : String)
    (hc : k ≠ "count") (ht : k ≠ "total_count") :
    ((header_loop C read_header argument num_inputs).properties.find k ≠ none ↔
        ∃ p ∈ input_headers read_header argument num_inputs, p.find k ≠ none) ∧
    (∀ v, (∃ p ∈ input_headers read_header argument num_inputs, p.find k = some v) →
        (∀ p ∈ input_headers read_header argument num_inputs,
          ∀ w, p.find k = some w → w = v) →
        (header_loop C read_header argument num_inputs).properties.find k = some v) ∧
    (∀ p ∈ input_headers read_header argument num_inputs,
      ∀ q ∈ input_headers read_header argument num_inputs,
      ∀ v w, p.find k = some v → q.find k = some w → v ≠ w →
        (header_loop C read_header argument num_inputs).properties.find k
          = some "variable") := by
  rw [header_loop_find C read_header argument num_inputs k hc ht]
  refine ⟨?_, ?_, ?_⟩
  · rw [Ne, consensus_foldl_none_iff]
    simp
  · rintro v ⟨p, hp, hpv⟩ hall
    apply consensus_foldl_same_of_none
    · intro o ho
      rcases List.mem_map.mp ho with ⟨q, hq, rfl⟩
      cases hqk : q.find k with
      | none => exact Or.inl rfl
      | some w => exact Or.inr (by rw [hall q hq w hqk])
    · exact List.mem_map.mpr ⟨p, hp, hpv⟩
  · intro p hp q hq v w hpv hqw hne
    exact consensus_foldl_variable _ none v w
      (List.mem_map.mpr ⟨p, hp, hpv⟩) (List.mem_map.mpr ⟨q, hq, hqw⟩) hne

/-- Worked example for C1: `key` is `A` in the first file and `B` in the second, and the merged
header holds `key = "variable"`. -/
theorem consensus_merge_keys_example :
    (header_loop binary32 example_read ["a.tck", "b.tck", "out.tck"] 2).properties.find "key"
      = some "variable" :=
  (consensus_merge_keys binary32 example_read ["a.tck", "b.tck", "out.tck"] 2 "key"
    (by decide) (by decide)).2.2
    file_a (List.mem_cons_self _ _) file_b (List.mem_cons_of_mem _ (List.mem_cons_self _ _))
    "A" "B" (by decide) (by decide) (by decide)

/-! ## Theorems: the sentinel is terminal -/

theorem header_step_variable (C : CountOps) (read_header : String → Properties)
    (st : LoopState) (path k : String) (h : st.properties.find k = some "variable") :
    (header_step C read_header st path).properties.find k = some "variable" := by
  rw [header_step_find, h, consensus_step_variable]
  simp

/-- Claim C7. The sentinel `"variable"` is terminal: if the accumulator holds
`k = "variable"` after the first `n` input files, it still holds `k = "variable"` after the
first `m` files for every `m ≥ n`, whatever the later files hold for `k`. -/
theorem variable_is_terminal (C : CountOps) (read_header : String → Properties)
    (argument : List String) (n m : Nat) (k : String) (hnm : n ≤ m)
    (h : (header_loop C read_header argument n).properties.find k = some "variable") :
    (header_loop C read_header argument m).properties.find k = some "variable" := by
  induction m, hnm using Nat.le_induction with
  | base => exact h
  | succ m _ ih =>
    rw [header_loop_succ]
    exact header_step_variable C read_header _ _ k ih

/-- Worked example for C7: `key` is `A`, `B`, `A` in three files; it is `"variable"` after two
files and stays so after the third, which agrees with the first. -/
theorem variable_is_terminal_example :
    (header_loop binary32 example_read ["a.tck", "b.tck", "a.tck", "out.tck"] 2).properties.find
        "key" = some "variable" ∧
    (header_loop binary32 example_read ["a.tck", "b.tck", "a.tck", "out.tck"] 3).properties.find
        "key" = some "variable" :=
  ⟨by decide,
   variable_is_terminal binary32 example_read ["a.tck", "b.tck", "a.tck", "out.tck"] 2 3 "key"
     (by decide) (by decide)⟩

/-! ## Theorems: the merge of comments -/

theorem comment_present_iff (i : String) (l : List String) :
    comment_present i l = true ↔ i ∈ l := by
  induction l with
  | nil => simp [comment_present]
  | cons j t ih =>
    by_cases h : i = j
    · simp [comment_present, h]
    · simp [comment_present, h, ih]

theorem first_occurrences_filter (p : String → Bool) (l : List String) :
    first_occurrences (l.filter p) = (first_occurrences l).filter p := by
  induction l with
  | nil => rfl
  | cons a t ih =>
    by_cases hp : p a = true
    · simp only [List.filter_cons, hp, if_true, first_occurrences, ih, List.filter_filter]
      congr 1
      apply List.filter_congr
      intro x _
      exact Bool.and_comm _ _
    · simp only [List.filter_cons, hp, first_occurrences, List.filter_filter]
      simp only [Bool.false_eq_true, if_false]
      rw [ih]
      apply List.filter_congr
      intro x _
      by_cases hx : x = a
      · subst hx; simp [hp]
      · simp [hx]

theorem mem_first_occurrences (c : String) (l : List String) :
    c ∈ first_occurrences l ↔ c ∈ l := by
  induction l with
  | nil => simp [first_occurrences]
  | cons a t ih =>
    by_cases h : c = a
    · simp [first_occurrences, h]
    · simp [first_occurrences, h, List.mem_filter, ih]

theorem nodup_first_occurrences (l : List String) : (first_occurrences l).Nodup := by
  induction l with
  | nil => exact List.nodup_nil
  | cons a t ih =>
    simp only [first_occurrences, List.nodup_cons, List.mem_filter]
    refine ⟨fun h => ?_, ih.filter _⟩
    simp at h

theorem merge_comments_eq (acc cs : List String) :
    merge_comments acc cs
      = acc ++ first_occurrences (cs.filter (fun y => decide (y ∉ acc))) := by
  unfold merge_comments
  induction cs generalizing acc with
  | nil => simp [first_occurrences]
  | cons x t ih =>
    rw [List.foldl_cons]
    by_cases hx : x ∈ acc
    · have h1 : comment_present x acc = true := (comment_present_iff x acc).mpr hx
      rw [if_pos h1, ih]
      simp [List.filter_cons, hx]
    · have h1 : ¬ comment_present x acc = true := fun h => hx ((comment_present_iff x acc).mp h)
      rw [if_neg h1, ih]
      simp only [List.filter_cons, hx, not_false_eq_true, decide_True, if_true,
        first_occurrences, List.append_assoc, List.singleton_append]
      congr 2
      rw [← first_occurrences_filter, List.filter_filter]
      congr 1
      apply List.filter_congr
      intro y _
      by_cases hy : y = x
      · subst hy; simp
      · simp [hy]

theorem merge_comments_append (acc c1 c2 : List String) :
    merge_comments (merge_comments acc c1) c2 = merge_comments acc (c1 ++ c2) := by
  unfold merge_comments
  rw [List.foldl_append]

theorem header_loop_comments (C : CountOps) (read_header : String → Properties)
    (argument : List String) (num_inputs : Nat) :
    (header_loop C read_header argument num_inputs).properties.comments
      = merge_comments []
          ((input_headers read_header argument num_inputs).map
            (fun p => p.comments)).flatten := by
  induction num_inputs with
  | zero => rfl
  | succ n ih =>
    rw [header_loop_succ, input_headers_succ, header_step_comments, ih, merge_comments_append]
    simp

/-- Claim C4. Comment merge in `run`: the merged comment list is the concatenation of the
input comment lists, in file order, with every string kept at its first occurrence only; so
it has no duplicates, contains exactly the comments of the inputs, and a comment that occurs
in the inputs (in one file or in several) occurs exactly once in it. -/
theorem merged_comments_first_occurrences (C : CountOps) (read_header : String → Properties)
    (argument : List String) (num_inputs : Nat) :
    (header_loop C read_header argument num_inputs).properties.comments
        = first_occurrences
            ((input_headers read_header argument num_inputs).map (fun p => p.comments)).flatten ∧
    (header_loop C read_header argument num_inputs).properties.comments.Nodup ∧
    (∀ c, c ∈ (header_loop C read_header argument num_inputs).properties.comments ↔
        ∃ p ∈ input_headers read_header argument num_inputs, c ∈ p.comments) ∧
    (∀ c, (∃ p ∈ input_headers read_header argument num_inputs, c ∈ p.comments) →
        (header_loop C read_header argument num_inputs).properties.comments.count c = 1) := by
  have h1 : (header_loop C read_header argument num_inputs).properties.comments
        = first_occurrences
            ((input_headers read_header argument num_inputs).map (fun p => p.comments)).flatten := by
    rw [header_loop_comments, merge_comments_eq, List.nil_append]
    congr 1
    apply List.filter_eq_self.mpr
    intro c _
    simp
  have h2 : ∀ c, c ∈ (header_loop C read_header argument num_inputs).properties.comments ↔
        ∃ p ∈ input_headers read_header argument num_inputs, c ∈ p.comments := by
    intro c
    rw [h1, mem_first_occurrences]
    simp [List.mem_flatten]
  have h3 : (header_loop C read_header argument num_inputs).properties.comments.Nodup := by
    rw [h1]; exact nodup_first_occurrences _
  refine ⟨h1, h3, h2, fun c hc => ?_⟩
  exact List.count_eq_one_of_mem h3 ((h2 c).mpr hc)

/-- Worked example for C4: the comment `shared` stands in both example files and once in the
merged list, which is `first`, `shared`, `second`. -/
theorem merged_comments_example :
    (header_loop binary32 example_read ["a.tck", "b.tck", "out.tck"] 2).properties.comments
        = ["first", "shared", "second"] ∧
    (header_loop binary32 example_read
        ["a.tck", "b.tck", "out.tck"] 2).properties.comments.count "shared" = 1 :=
  ⟨(merged_comments_first_occurrences binary32 example_read
      ["a.tck", "b.tck", "out.tck"] 2).1.trans (by decide),
   (merged_comments_first_occurrences binary32 example_read
      ["a.tck", "b.tck", "out.tck"] 2).2.2.2 "shared"
      ⟨file_a, List.mem_cons_self _ _, by decide⟩⟩

/-! ## Lemmas: rounding to single precision -/

theorem dropped_bits_zero (a : Nat) : F32.dropped_bits a 0 = 0 := rfl

theorem dropped_bits_succ (a s : Nat) :
    F32.dropped_bits a (s + 1)
      = if 2 ^ (s + 24) ≤ a then s + 1 else F32.dropped_bits a s := rfl

theorem dropped_bits_le (a fuel : Nat) : F32.dropped_bits a fuel ≤ fuel := by
  induction fuel with
  | zero => rw [dropped_bits_zero]
  | succ s ih =>
    rw [dropped_bits_succ]
    split
    · exact Nat.le_refl _
    · exact Nat.le_succ_of_le ih

theorem dropped_bits_lower (a fuel : Nat) (h : 0 < F32.dropped_bits a fuel) :
    2 ^ (F32.dropped_bits a fuel + 23) ≤ a := by
  induction fuel with
  | zero => rw [dropped_bits_zero] at h; omega
  | succ s ih =>
    rw [dropped_bits_succ] at h ⊢
    by_cases hc : 2 ^ (s + 24) ≤ a
    · rw [if_pos hc]; exact hc
    · rw [if_neg hc] at h ⊢
      exact ih h

theorem dropped_bits_upper (a fuel : Nat) (h : F32.dropped_bits a fuel < fuel) :
    a < 2 ^ (F32.dropped_bits a fuel + 24) := by
  induction fuel with
  | zero => omega
  | succ s ih =>
    rw [dropped_bits_succ] at h ⊢
    by_cases hc : 2 ^ (s + 24) ≤ a
    · rw [if_pos hc] at h; omega
    · rw [if_neg hc] at h ⊢
      rcases Nat.lt_or_ge (F32.dropped_bits a s) s with h2 | h2
      · exact ih h2
      · have h3 : F32.dropped_bits a s = s := Nat.le_antisymm (dropped_bits_le a s) h2
        rw [h3]
        exact Nat.lt_of_not_le hc

theorem round_half_even_of_dvd (a b : Nat) (hb : 0 < b) (h : b ∣ a) :
    round_half_even a b * b = a := by
  unfold round_half_even
  have h0 : a % b = 0 := Nat.mod_eq_zero_of_dvd h
  simp only [h0, Nat.mul_zero, hb, if_true]
  exact Nat.div_mul_cancel h

/-- A number with at most 24 significant bits and exponent in range is a `float`: rounding
leaves it unchanged. -/
theorem round_exact (k : Int) (m e : Nat) (hm : m < 2 ^ 24) (he : e ≤ 253)
    (hk : k.natAbs = m * 2 ^ e) : F32.round k = F32.fin k := by
  unfold F32.round
  simp only
  by_cases hsmall : k.natAbs < 2 ^ 24
  · rw [if_pos hsmall]
  · rw [if_neg hsmall]
    have hpe : 0 < 2 ^ e := Nat.two_pow_pos e
    have hlt : k.natAbs < 2 ^ (24 + e) := by
      rw [hk, Nat.pow_add]
      exact Nat.mul_lt_mul_of_pos_right hm hpe
    have hpos : 0 < F32.dropped_bits k.natAbs 254 := by
      rcases Nat.eq_zero_or_pos (F32.dropped_bits k.natAbs 254) with h0 | h0
      · have h1 := dropped_bits_upper k.natAbs 254 (by omega)
        rw [h0] at h1
        exact absurd h1 hsmall
      · exact h0
    have hlow := dropped_bits_lower k.natAbs 254 hpos
    have hsh : F32.dropped_bits k.natAbs 254 ≤ e := by
      have h1 : 2 ^ (F32.dropped_bits k.natAbs 254 + 23) < 2 ^ (24 + e) :=
        Nat.lt_of_le_of_lt hlow hlt
      have h2 := (Nat.pow_lt_pow_iff_right (by norm_num : 1 < 2)).mp h1
      omega
    have h2e : 2 ^ e ∣ k.natAbs := ⟨m, by rw [hk, Nat.mul_comm]⟩
    have hdvd : 2 ^ F32.dropped_bits k.natAbs 254 ∣ k.natAbs :=
      (Nat.pow_dvd_pow 2 hsh).trans h2e
    have hr := round_half_even_of_dvd k.natAbs (2 ^ F32.dropped_bits k.natAbs 254)
      (Nat.two_pow_pos _) hdvd
    rw [hr]
    have hfin : ¬ 2 ^ 149 * 2 ^ 128 ≤ k.natAbs := by
      have h0 : 24 + e ≤ 149 + 128 := by omega
      have key : ∀ x y : Nat, 24 + e ≤ x + y → 2 ^ (24 + e) ≤ 2 ^ x * 2 ^ y := by
        intro x y hxy
        rw [← Nat.pow_add]
        exact Nat.pow_le_pow_right (Nat.succ_pos 1) hxy
      have h1 : 2 ^ (24 + e) ≤ 2 ^ 149 * 2 ^ 128 := key 149 128 h0
      exact fun h => absurd (Nat.lt_of_lt_of_le hlt h1) (Nat.not_lt.mpr h)
    rw [if_neg hfin]
    congr 1
    split <;> omega

theorem round_of_nat_exact (n : Nat) (h : n ≤ 2 ^ 24) :
    F32.round ((n : Int) * 2 ^ 149) = F32.fin ((n : Int) * 2 ^ 149) := by
  rcases Nat.lt_or_ge n (2 ^ 24) with h1 | h1
  · apply round_exact _ n 149 h1 (by norm_num)
    simp [Int.natAbs_mul, Int.natAbs_pow]
  · have h2 : n = 2 ^ 24 := Nat.le_antisymm h h1
    subst h2
    apply round_exact _ 1 173 (by norm_num) (by norm_num)
    have h2 : Int.natAbs 2 = 2 := rfl
    simp only [Int.natAbs_mul, Int.natAbs_pow, Int.natAbs_ofNat, Nat.one_mul, h2]
    rw [← Nat.pow_add]

theorem to_size_of_nat (n : Nat) (h : n < 2 ^ 64) :
    F32.to_size (F32.fin ((n : Int) * 2 ^ 149)) = n := by
  unfold F32.to_size
  have hp : (0 : Int) < 2 ^ 149 := pow_pos (by norm_num) 149
  have h1 : ((n : Int) * 2 ^ 149) / 2 ^ 149 = (n : Int) :=
    Int.mul_ediv_cancel _ (ne_of_gt hp)
  have h2 : (0 : Int) ≤ (n : Int) * 2 ^ 149 :=
    Int.mul_nonneg (Int.ofNat_nonneg n) (le_of_lt hp)
  have h3 : (n : Int) < 2 ^ 64 := by exact_mod_cast h
  simp only
  rw [h1, if_pos ⟨h2, h3⟩, Int.toNat_ofNat]

theorem is_float_fin (k : Int) :
    F32.is_float (F32.fin k) = true ↔ F32.round k = F32.fin k :=
  ⟨fun h => of_decide_eq_true h, fun h => decide_eq_true h⟩

/-- In single precision a `count` written as an integer below `2 ^ 64` that is a `float`
converts to itself. -/
theorem this_count_exact (s : String) (n : Nat) (hs : numeral s = some n)
    (hf : F32.is_float (F32.fin ((n : Int) * 2 ^ 149)) = true) (hn : n < 2 ^ 64) :
    binary32.to_size (binary32.to_float s) = n := by
  show F32.to_size (to_float_numeral s) = n
  unfold to_float_numeral
  rw [hs]
  simp only
  have hr : F32.round ((n : Int) * 2 ^ 149) = F32.fin ((n : Int) * 2 ^ 149) :=
    (is_float_fin _).mp hf
  rw [hr]
  exact to_size_of_nat n hn

/-- Every integer from `0` to `2 ^ 24` is a `float`. -/
theorem is_float_of_le (n : Nat) (h : n ≤ 2 ^ 24) :
    F32.is_float (F32.fin ((n : Int) * 2 ^ 149)) = true :=
  (is_float_fin _).mpr (round_of_nat_exact n h)

/-- No `float` converts to the `size_t` value `16777217`: the finite numbers from `2 ^ 24` to
`2 ^ 25` that are a `float` are the even integers. -/
theorem to_size_ne_of_is_float (x : F32) (hx : x.is_float = true) :
    F32.to_size x ≠ 16777217 := by
  intro hsz
  cases x with
  | nan => simp [F32.to_size] at hsz
  | inf neg => simp [F32.to_size] at hsz
  | fin k =>
    have hround : F32.round k = F32.fin k := (is_float_fin k).mp hx
    unfold F32.to_size at hsz
    simp only at hsz
    by_cases hc : 0 ≤ k ∧ k / 2 ^ 149 < 2 ^ 64
    · rw [if_pos hc] at hsz
      have hk : ((k.natAbs : Nat) : Int) = k := Int.natAbs_of_nonneg hc.1
      have hq : k.natAbs / 2 ^ 149 = 16777217 := by
        have h1 : (((k.natAbs / 2 ^ 149 : Nat)) : Int) = k / 2 ^ 149 := by
          rw [Int.ofNat_ediv, hk]
          norm_cast
        have h2 : (k / 2 ^ 149).toNat = k.natAbs / 2 ^ 149 := by
          rw [← h1, Int.toNat_ofNat]
        rw [h2] at hsz
        exact hsz
      have hge : 2 ^ (24 + 149) ≤ k.natAbs := by
        rw [Nat.pow_add]
        apply (Nat.le_div_iff_mul_le (Nat.two_pow_pos 149)).mp
        rw [hq]
        norm_num
      have hlt : k.natAbs < 2 ^ (25 + 149) := by
        rw [Nat.pow_add]
        apply (Nat.div_lt_iff_lt_mul (Nat.two_pow_pos 149)).mp
        rw [hq]
        norm_num
      have hbig : ¬ k.natAbs < 2 ^ 24 := by
        have h1 : 2 ^ 24 ≤ 2 ^ (24 + 149) := Nat.pow_le_pow_right (Nat.succ_pos 1) (by omega)
        exact Nat.not_lt.mpr (Nat.le_trans h1 hge)
      have hpos : 0 < F32.dropped_bits k.natAbs 254 := by
        rcases Nat.eq_zero_or_pos (F32.dropped_bits k.natAbs 254) with h0 | h0
        · have h1 := dropped_bits_upper k.natAbs 254 (by omega)
          rw [h0] at h1
          exact absurd h1 hbig
        · exact h0
      have hsh : F32.dropped_bits k.natAbs 254 = 150 := by
        have h1 : 2 ^ (F32.dropped_bits k.natAbs 254 + 23) < 2 ^ (25 + 149) :=
          Nat.lt_of_le_of_lt (dropped_bits_lower k.natAbs 254 hpos) hlt
        have h2 := (Nat.pow_lt_pow_iff_right (by norm_num : 1 < 2)).mp h1
        have h3 : F32.dropped_bits k.natAbs 254 < 254 := by omega
        have h4 : 2 ^ (24 + 149) < 2 ^ (F32.dropped_bits k.natAbs 254 + 24) :=
          Nat.lt_of_le_of_lt hge (dropped_bits_upper k.natAbs 254 h3)
        have h5 := (Nat.pow_lt_pow_iff_right (by norm_num : 1 < 2)).mp h4
        omega
      unfold F32.round at hround
      simp only at hround
      rw [if_neg hbig, hsh] at hround
      generalize round_half_even k.natAbs (2 ^ 150) = m at hround
      by_cases hov : 2 ^ 149 * 2 ^ 128 ≤ m * 2 ^ 150
      · rw [if_pos hov] at hround
        exact absurd hround (by simp)
      · rw [if_neg hov, if_neg (not_lt.mpr hc.1)] at hround
        have hkm : ((m * 2 ^ 150 : Nat) : Int) = k := F32.fin.inj hround
        have hnat : k.natAbs = m * 2 ^ 150 := by
          rw [← hkm]
          exact Int.natAbs_ofNat _
        have hdiv : k.natAbs / 2 ^ 149 = m * 2 := by
          rw [hnat]
          have h1 : m * 2 ^ 150 = (m * 2) * 2 ^ 149 := by
            rw [Nat.mul_assoc, ← Nat.pow_succ']
          rw [h1]
          exact Nat.mul_div_cancel _ (Nat.two_pow_pos 149)
        omega
    · rw [if_neg hc] at hsz
      exact absurd hsz (by norm_num)

/-! ## Lemmas: `run` -/

theorem range_map_getD_append (l : List String) (x d : String) :
    (List.range l.length).map (fun i => (l ++ [x]).getD i d) = l := by
  induction l with
  | nil => rfl
  | cons a t ih =>
    rw [List.length_cons, List.range_succ_eq_map, List.map_cons, List.map_map]
    simp only [List.cons_append, List.getD_cons_zero]
    congr 1

theorem argument_length (cl : CommandLine) : cl.argument.length - 1 = cl.tracks_in.length := by
  simp [CommandLine.argument]

theorem input_headers_argument (read_header : String → Properties) (cl : CommandLine) :
    input_headers read_header cl.argument (cl.argument.length - 1)
      = cl.tracks_in.map read_header := by
  rw [argument_length]
  unfold input_headers CommandLine.argument
  have h := range_map_getD_append cl.tracks_in cl.tracks_out ""
  calc (List.range cl.tracks_in.length).map
          (fun i => read_header ((cl.tracks_in ++ [cl.tracks_out]).getD i ""))
      = ((List.range cl.tracks_in.length).map
          (fun i => (cl.tracks_in ++ [cl.tracks_out]).getD i "")).map read_header := by
        rw [List.map_map]; rfl
    _ = cl.tracks_in.map read_header := by rw [h]

theorem output_path_argument (cl : CommandLine) :
    cl.argument.getD (cl.argument.length - 1) "" = cl.tracks_out := by
  rw [argument_length]
  unfold CommandLine.argument
  simp [List.getD_append_right]

theorem receiver_arguments_opened (l : List String) (rest : List Event) :
    receiver_arguments (l.map Event.open_header ++ rest) = receiver_arguments rest := by
  induction l with
  | nil => rfl
  | cons a t ih => simpa [receiver_arguments] using ih

/-- The outcome of `run` when the configuration check passes. -/
theorem run_accepted (C : CountOps) (S : StepOps C.F) (env : Env) (cl : CommandLine)
    (h : ¬ (cl.tck_weights_in.length ≠ 0 ∧ cl.argument.length - 1 > 1)) :
    run C S env cl =
      ⟨(header_loop C env.read_header cl.argument
            (cl.argument.length - 1)).input_file_list.map Event.open_header ++
        [Event.construct_loader
          (header_loop C env.read_header cl.argument (cl.argument.length - 1)).input_file_list,
         Event.construct_worker
          (env.load_properties (env.load_rois
            (header_loop C env.read_header cl.argument (cl.argument.length - 1)).properties))
          (option_or cl.upsample 1) (option_or cl.downsample 1),
         Event.construct_receiver (cl.argument.getD (cl.argument.length - 1) "")
          (update_output_step_size C.to_float S
            (env.load_properties (env.load_rois
              (header_loop C env.read_header cl.argument (cl.argument.length - 1)).properties))
            (option_or cl.upsample 1) (option_or cl.downsample 1))
          (header_loop C env.read_header cl.argument (cl.argument.length - 1)).count
          (option_or cl.number 0) (option_or cl.skip 0),
         Event.run_queue], none⟩ := by
  unfold run
  simp only
  rw [if_neg h]

/-- The outcome of `run` when the configuration check fails. -/
theorem run_rejected (C : CountOps) (S : StepOps C.F) (env : Env) (cl : CommandLine)
    (h : cl.tck_weights_in.length ≠ 0 ∧ cl.argument.length - 1 > 1) :
    run C S env cl
      = ⟨[], some "Cannot use per-streamline weighting with multiple input files"⟩ := by
  unfold run
  simp only
  rw [if_pos h]

theorem run_exception_iff (C : CountOps) (S : StepOps C.F) (env : Env) (cl : CommandLine) :
    (run C S env cl).exception ≠ none ↔
      (cl.tck_weights_in.length ≠ 0 ∧ cl.argument.length - 1 > 1) := by
  by_cases h : cl.tck_weights_in.length ≠ 0 ∧ cl.argument.length - 1 > 1
  · rw [run_rejected C S env cl h]
    exact ⟨fun _ => h, fun _ => by simp⟩
  · rw [run_accepted C S env cl h]
    exact ⟨fun h2 => absurd rfl h2, fun h2 => absurd h2 h⟩

/-! ## Lemmas: the estimated count -/

theorem header_loop_count (C : CountOps) (read_header : String → Properties)
    (argument : List String) (num_inputs : Nat) :
    (header_loop C read_header argument num_inputs).count
      = ((input_headers read_header argument num_inputs).map (converted_count C)).sum
          % 2 ^ 64 := by
  induction num_inputs with
  | zero => rfl
  | succ n ih =>
    rw [header_loop_succ, header_step_count, ih, input_headers_succ, List.map_append,
      List.sum_append, Nat.mod_add_mod]
    simp [converted_count]

/-! ## Theorems: the estimated count -/

theorem converted_count_exact (p : Properties)
    (h : ∀ s, p.find "count" = some s →
      ∃ n, numeral s = some n ∧ F32.is_float (F32.fin ((n : Int) * 2 ^ 149)) = true ∧
        n < 2 ^ 64) :
    converted_count binary32 p = count_value p := by
  unfold converted_count count_value
  cases hp : p.find "count" with
  | none => rfl
  | some s =>
    rcases h s hp with ⟨n, hn, hf, hlt⟩
    simp only [hn, Option.getD_some]
    exact this_count_exact s n hn hf hlt

theorem receiver_count_accepted (C : CountOps) (S : StepOps C.F) (env : Env)
    (cl : CommandLine) (h : ¬ (cl.tck_weights_in.length ≠ 0 ∧ cl.argument.length - 1 > 1)) :
    receiver_count (run C S env cl).events
      = some (((cl.tracks_in.map env.read_header).map (converted_count C)).sum % 2 ^ 64) := by
  rw [run_accepted C S env cl h]
  unfold receiver_count
  simp only
  rw [receiver_arguments_opened, header_loop_count, input_headers_argument]
  rfl

/-- Claim C3, amended. When `run` accepts the configuration and every `count` value of an
input header is a non-negative integer below `2 ^ 64` that is exactly representable in single
precision (such integers pass through `to<float>` unchanged), the count the `Receiver` is
constructed with is the sum over the input files of the `count` values (`0` for a header
without `count`), reduced modulo `2 ^ 64`, the range of `size_t`. -/
theorem receiver_count_sum (S : StepOps F32) (env : Env) (cl : CommandLine)
    (hrun : (run binary32 S env cl).exception = none)
    (hnum : ∀ path ∈ cl.tracks_in, ∀ s, (env.read_header path).find "count" = some s →
      ∃ n, numeral s = some n ∧ F32.is_float (F32.fin ((n : Int) * 2 ^ 149)) = true ∧
        n < 2 ^ 64) :
    receiver_count (run binary32 S env cl).events
      = some ((cl.tracks_in.map (fun path => count_value (env.read_header path))).sum
          % 2 ^ 64) := by
  have h : ¬ (cl.tck_weights_in.length ≠ 0 ∧ cl.argument.length - 1 > 1) :=
    fun h2 => ((run_exception_iff binary32 S env cl).mpr h2) hrun
  rw [receiver_count_accepted binary32 S env cl h, List.map_map]
  have hmap : List.map (converted_count binary32 ∘ env.read_header) cl.tracks_in
      = List.map (fun path => count_value (env.read_header path)) cl.tracks_in := by
    apply List.map_congr_left
    intro path hpath
    exact converted_count_exact _ (hnum path hpath)
  rw [hmap]

/-- Worked example for C3: headers with `count = 100` and `count = 50` give the `Receiver` the
count `150`. -/
theorem receiver_count_sum_example :
    count_value file_a = 100 ∧ count_value file_b = 50 ∧
    ∀ S : StepOps F32,
      receiver_count (run binary32 S example_env example_command).events = some 150 :=
  ⟨by decide, by decide, fun S =>
    (receiver_count_sum S example_env example_command
      (by
        rw [run_accepted binary32 S example_env example_command (by decide)])
      (by
        intro path hpath s hs
        have hcases : path = "a.tck" ∨ path = "b.tck" := by
          simpa [example_command] using hpath
        rcases hcases with rfl | rfl
        · have h1 : (example_env.read_header "a.tck").find "count" = some "100" := by decide
          rw [h1] at hs
          cases hs
          exact ⟨100, by decide, is_float_of_le 100 (by norm_num), by norm_num⟩
        · have h1 : (example_env.read_header "b.tck").find "count" = some "50" := by decide
          rw [h1] at hs
          cases hs
          exact ⟨50, by decide, is_float_of_le 50 (by norm_num), by norm_num⟩)).trans
      (by decide)⟩

/-- Counterexample to C3 as stated: a single input header with `count = 16777217`, a
non-negative integer, gives the `Receiver` the count `16777216`, because the value is read
through `to<float>` and `2 ^ 24 + 1` is not a `float`; whatever `float` the conversion
returned, its conversion to `size_t` could not be `16777217`. -/
theorem receiver_count_counterexample :
    (big_command.tracks_in.map (fun path => count_value (example_env.read_header path))).sum
        = 16777217 ∧
    (∀ S : StepOps F32,
      receiver_count (run binary32 S example_env big_command).events = some 16777216) ∧
    (∀ x : F32, x.is_float = true → F32.to_size x ≠ 16777217) := by
  refine ⟨by decide, fun S => ?_, to_size_ne_of_is_float⟩
  rw [receiver_count_accepted binary32 S example_env big_command (by decide)]
  decide!

/-! ## Theorems: `total_count` -/

/-- Claim C2, evaluated on the code. Input headers with `total_count = 10` and
`total_count = 20`: the loop over the entries leaves `this_total_count = 10` for the first
file and `this_total_count = 20` for the second, a variable that starts at zero for every
file; the state after the loop is the merged properties (without `total_count`), the summed
`count = 150` and the file list, and nowhere holds the total `30`. -/
theorem total_count_not_summed :
    (header_scan binary32 example_read LoopState.init "a.tck").this_total_count = 10 ∧
    (header_scan binary32 example_read
        (header_loop binary32 example_read ["a.tck", "b.tck", "out.tck"] 1)
        "b.tck").this_total_count = 20 ∧
    (header_loop binary32 example_read ["a.tck", "b.tck", "out.tck"] 2).count = 150 ∧
    (header_loop binary32 example_read ["a.tck", "b.tck", "out.tck"] 2).input_file_list
      = ["a.tck", "b.tck"] ∧
    (header_loop binary32 example_read ["a.tck", "b.tck", "out.tck"] 2).properties.map.entries
      = [("key", "variable")] ∧
    (header_loop binary32 example_read ["a.tck", "b.tck", "out.tck"] 2).properties.comments
      = ["first", "shared", "second"] ∧
    (header_loop binary32 example_read ["a.tck", "b.tck", "out.tck"] 2).properties.roi
      = [] := by
  refine ⟨?_, ?_, ?_, ?_, ?_, ?_, ?_⟩ <;> decide!

/-! ## Theorems: the configuration check -/

/-- Claim C6. `run` throws exactly when the option `tck_weights_in` is given and there is more
than one input file, and then it has taken no step at all: no input header was opened and
neither the `Loader`, the `Worker` nor the `Receiver` (which creates the output file) was
constructed. With the option and exactly one input, or without the option, `run` does not
throw. -/
theorem run_rejects_weights_with_multiple_inputs (C : CountOps) (S : StepOps C.F) (env : Env)
    (cl : CommandLine) :
    ((run C S env cl).exception ≠ none ↔
        (cl.tck_weights_in.length ≠ 0 ∧ cl.tracks_in.length > 1)) ∧
    ((cl.tck_weights_in.length ≠ 0 ∧ cl.tracks_in.length > 1) →
        run C S env cl
          = ⟨[], some "Cannot use per-streamline weighting with multiple input files"⟩) ∧
    (cl.tck_weights_in.length ≠ 0 → cl.tracks_in.length = 1 →
        (run C S env cl).exception = none) ∧
    (cl.tck_weights_in.length = 0 → (run C S env cl).exception = none) := by
  have hiff := run_exception_iff C S env cl
  rw [argument_length] at hiff
  refine ⟨hiff, fun h => ?_, fun _ h1 => ?_, fun h0 => ?_⟩
  · exact run_rejected C S env cl (by rw [argument_length]; exact h)
  · by_contra hne
    have := (hiff.mp hne).2
    omega
  · by_contra hne
    exact (hiff.mp hne).1 h0

/-! ## Theorems: the order of the step-size update -/

theorem update_unchanged_ratios {F : Type} (to_float : String → F) (S : StepOps F)
    (p : Properties) : update_output_step_size to_float S p 1 1 = p := by
  unfold update_output_step_size
  simp

theorem update_map {F : Type} (to_float : String → F) (S : StepOps F) (p : Properties)
    (U D : Int) (h : ¬ (U = 1 ∧ D = 1)) :
    update_output_step_size to_float S p U D
      = { p with
          map := p.map.index_assign "output_step_size"
            (String.singleton (S.to_char
              (S.div (S.mul (base_step_size to_float S p) (S.of_int D)) (S.of_int U)))) } := by
  unfold update_output_step_size base_step_size Properties.find StdMap.index_assign_float
  rw [if_neg h]
  cases h1 : p.map.find "output_step_size" with
  | some v => simp [StdMap.index_of_find h1]
  | none =>
    cases h2 : p.map.find "step_size" with
    | some v => simp [StdMap.index_of_find h2]
    | none => simp

/-- For ratios not both `1`, the key `output_step_size` holds after the call the single
character that `base_step_size * D / U` converts to, with `base_step_size` as in the spec. -/
theorem output_step_size_stored {F : Type} (to_float : String → F) (S : StepOps F)
    (p : Properties) (U D : Int) (h : U ≠ 1 ∨ D ≠ 1) :
    (update_output_step_size to_float S p U D).find "output_step_size"
      = some (String.singleton (S.to_char
          (S.div (S.mul (base_step_size to_float S p) (S.of_int D)) (S.of_int U)))) := by
  have h2 : ¬ (U = 1 ∧ D = 1) := by
    rintro ⟨hu, hd⟩
    rcases h with h | h
    · exact h hu
    · exact h hd
  rw [update_map to_float S p U D h2]
  simp [Properties.find, StdMap.find_index_assign]

theorem singleton_length (c : Char) : (String.singleton c).length = 1 := rfl

/-- Claim C5, evaluated on the code. With `step_size = 0.5`, no prior `output_step_size`,
`U = 1` and `D = 200`, the claim has `output_step_size` hold `0.5 * 200 / 1 = 100`. In every
model of the `float` operations the key holds instead the one character that this `float`
converts to, a text of length `1` and so not the text `100`; and for all properties and
ratios not both `1` the key holds a text of a single character. -/
theorem output_step_size_one_character {F : Type} (to_float : String → F) (S : StepOps F) :
    (update_output_step_size to_float S tracked 1 200).find "output_step_size"
      = some (String.singleton (S.to_char
          (S.div (S.mul (to_float "0.5") (S.of_int 200)) (S.of_int 1)))) ∧
    (update_output_step_size to_float S tracked 1 200).find "output_step_size"
      ≠ some "100" ∧
    (∀ (p : Properties) (U D : Int), U ≠ 1 ∨ D ≠ 1 →
      ∃ c : Char,
        (update_output_step_size to_float S p U D).find "output_step_size"
          = some (String.singleton c) ∧
        (String.singleton c).length = 1) := by
  have h1 := output_step_size_stored to_float S tracked 1 200 (Or.inr (by decide))
  have hbase : base_step_size to_float S tracked = to_float "0.5" := rfl
  rw [hbase] at h1
  refine ⟨h1, ?_, fun p U D h => ⟨_, output_step_size_stored to_float S p U D h,
    singleton_length _⟩⟩
  rw [h1]
  intro h2
  have h3 := congrArg String.length (Option.some.inj h2)
  rw [singleton_length] at h3
  exact absurd h3 (by decide)

/-- Claim C10. Frame of `update_output_step_size`: every key other than `output_step_size`
keeps its presence and value (no key is inserted by a lookup), the comments and the ROI
entries are untouched, and for `U = 1` and `D = 1` the properties are returned unchanged. -/
theorem update_output_step_size_frame {F : Type} (to_float : String → F) (S : StepOps F)
    (p : Properties) (U D : Int) :
    (∀ k, k ≠ "output_step_size" →
        (update_output_step_size to_float S p U D).find k = p.find k) ∧
    (update_output_step_size to_float S p U D).comments = p.comments ∧
    (update_output_step_size to_float S p U D).roi = p.roi ∧
    (U = 1 → D = 1 → update_output_step_size to_float S p U D = p) := by
  by_cases h : U = 1 ∧ D = 1
  · rcases h with ⟨rfl, rfl⟩
    rw [update_unchanged_ratios]
    exact ⟨fun _ _ => rfl, rfl, rfl, fun _ _ => rfl⟩
  · rw [update_map to_float S p U D h]
    refine ⟨fun k hk => ?_, rfl, rfl, fun hu hd => absurd ⟨hu, hd⟩ h⟩
    simp [Properties.find, StdMap.find_index_assign, hk]

/-- Worked example for C10: updating the example properties with `U = 2`, `D = 1` leaves
`step_size` and `method` as they were and inserts no other key. -/
theorem update_output_step_size_frame_example :
    ∀ (F : Type) (to_float : String → F) (S : StepOps F),
      (update_output_step_size to_float S tracked 2 1).find "step_size" = some "0.5" ∧
      (update_output_step_size to_float S tracked 2 1).find "method" = some "iFOD2" ∧
      (update_output_step_size to_float S tracked 2 1).find "count" = none ∧
      (update_output_step_size to_float S tracked 2 1).comments = ["note"] :=
  fun _ to_float S =>
    have h := update_output_step_size_frame to_float S tracked 2 1
    ⟨(h.1 "step_size" (by decide)).trans (by decide),
     (h.1 "method" (by decide)).trans (by decide),
     (h.1 "count" (by decide)).trans (by decide),
     h.2.1.trans rfl⟩

/-! ## Theorems: the bounds test of `Interp::Base` -/

theorem round_half_even_le (a b : Nat) : round_half_even a b ≤ a / b + 1 := by
  unfold round_half_even
  simp only
  split
  · omega
  · split
    · omega
    · split <;> omega

/-- Rounding a number of the interval `[0, 1)` gives a `float` of the interval `[0, 1]`. -/
theorem round_unit_interval (d : Int) (h0 : 0 ≤ d) (h1 : d < 2 ^ 149) :
    ∃ r : Int, F32.round d = F32.fin r ∧ 0 ≤ r ∧ r ≤ 2 ^ 149 := by
  unfold F32.round
  simp only
  by_cases hsmall : d.natAbs < 2 ^ 24
  · rw [if_pos hsmall]
    exact ⟨d, rfl, h0, le_of_lt h1⟩
  · rw [if_neg hsmall]
    have hd : (d.natAbs : Int) = d := Int.natAbs_of_nonneg h0
    have hlt : d.natAbs < 2 ^ 149 := by
      have : (d.natAbs : Int) < ((2 ^ 149 : Nat) : Int) := by rw [hd]; exact_mod_cast h1
      exact_mod_cast this
    have hpos : 0 < F32.dropped_bits d.natAbs 254 := by
      rcases Nat.eq_zero_or_pos (F32.dropped_bits d.natAbs 254) with h2 | h2
      · have h3 := dropped_bits_upper d.natAbs 254 (by omega)
        rw [h2] at h3
        exact absurd h3 hsmall
      · exact h2
    have hlow := dropped_bits_lower d.natAbs 254 hpos
    have hsh : F32.dropped_bits d.natAbs 254 ≤ 149 := by
      have h2 : 2 ^ (F32.dropped_bits d.natAbs 254 + 23) < 2 ^ 149 :=
        Nat.lt_of_le_of_lt hlow hlt
      have h3 := (Nat.pow_lt_pow_iff_right (by norm_num : 1 < 2)).mp h2
      omega
    generalize F32.dropped_bits d.natAbs 254 = sh at hsh ⊢
    have hsplit : 2 ^ 149 = 2 ^ (149 - sh) * 2 ^ sh := by
      rw [← Nat.pow_add]
      congr 1
      omega
    have hq : d.natAbs / 2 ^ sh < 2 ^ (149 - sh) := by
      rw [Nat.div_lt_iff_lt_mul (Nat.two_pow_pos sh), ← hsplit]
      exact hlt
    have hr : round_half_even d.natAbs (2 ^ sh) * 2 ^ sh ≤ 2 ^ 149 := by
      rw [hsplit]
      exact Nat.mul_le_mul_right _ (Nat.le_trans (round_half_even_le _ _) hq)
    have hfin : ¬ 2 ^ 149 * 2 ^ 128 ≤ round_half_even d.natAbs (2 ^ sh) * 2 ^ sh := by
      have h2 : 2 ^ 149 < 2 ^ 149 * 2 ^ 128 := by
        have h3 : 1 < 2 ^ 128 := Nat.one_lt_two_pow (by norm_num)
        calc 2 ^ 149 = 2 ^ 149 * 1 := (Nat.mul_one _).symm
          _ < 2 ^ 149 * 2 ^ 128 := Nat.mul_lt_mul_of_pos_left h3 (Nat.two_pow_pos 149)
      exact fun h => absurd (Nat.lt_of_le_of_lt hr h2) (Nat.not_lt.mpr h)
    rw [if_neg hfin, if_neg (not_lt.mpr h0)]
    refine ⟨_, rfl, Int.ofNat_nonneg _, ?_⟩
    exact_mod_cast hr

theorem of_int_minus_half_exact (n : Int) (h1 : 1 ≤ n) (h2 : n ≤ 2 ^ 23) :
    F32.of_int_minus_half n = F32.fin ((2 * n - 1) * 2 ^ 148) := by
  unfold F32.of_int_minus_half
  apply round_exact _ (2 * n - 1).toNat 148
  · have : 2 * n - 1 < 2 ^ 24 := by
      have h3 : (2 : Int) ^ 24 = 2 * 2 ^ 23 := by norm_num
      omega
    omega
  · norm_num
  · have h3 : Int.natAbs 2 = 2 := rfl
    rw [Int.natAbs_mul, Int.natAbs_pow, h3]
    congr 1
    omega

theorem set_out_of_bounds_iff (b : Base) (pos : Point) :
    (b.set pos).1.op_not = true ↔
      ∃ i, F32.lt (pos i) F32.neg_half = true ∨ F32.gt (pos i) (b.bounds i) = true := by
  unfold Base.set Base.op_not
  by_cases hc : (F32.lt (pos 0) F32.neg_half || F32.gt (pos 0) (b.bounds 0) ||
      F32.lt (pos 1) F32.neg_half || F32.gt (pos 1) (b.bounds 1) ||
      F32.lt (pos 2) F32.neg_half || F32.gt (pos 2) (b.bounds 2)) = true
  · rw [if_pos hc]
    simp only [true_iff]
    simp only [Bool.or_eq_true] at hc
    rcases hc with ((((h | h) | h) | h) | h) | h
    · exact ⟨0, Or.inl h⟩
    · exact ⟨0, Or.inr h⟩
    · exact ⟨1, Or.inl h⟩
    · exact ⟨1, Or.inr h⟩
    · exact ⟨2, Or.inl h⟩
    · exact ⟨2, Or.inr h⟩
  · rw [if_neg hc]
    simp only [Bool.false_eq_true, false_iff]
    rintro ⟨i, hi⟩
    apply hc
    simp only [Bool.or_eq_true]
    fin_cases i
    · rcases hi with h | h
      · exact Or.inl (Or.inl (Or.inl (Or.inl (Or.inl h))))
      · exact Or.inl (Or.inl (Or.inl (Or.inl (Or.inr h))))
    · rcases hi with h | h
      · exact Or.inl (Or.inl (Or.inl (Or.inr h)))
      · exact Or.inl (Or.inl (Or.inr h))
    · rcases hi with h | h
      · exact Or.inl (Or.inr h)
      · exact Or.inr h

theorem set_in_bounds_point (b : Base) (pos : Point) (h : (b.set pos).1.op_not = false) :
    (b.set pos).2 = fun i => F32.sub (pos i) (F32.floor (pos i)) := by
  unfold Base.set Base.op_not at *
  split at h
  · simp at h
  · rename_i hc
    rw [if_neg hc]

theorem sub_floor_unit_interval (k : Int) :
    ∃ r : Int, F32.sub (F32.fin k) (F32.floor (F32.fin k)) = F32.fin r ∧ 0 ≤ r ∧ r ≤ 2 ^ 149 := by
  have hp : (0 : Int) < 2 ^ 149 := pow_pos (by norm_num) 149
  have hmod : k - k / 2 ^ 149 * 2 ^ 149 = k % 2 ^ 149 := by
    rw [Int.emod_def, Int.mul_comm]
  show ∃ r : Int, F32.round (k - k / 2 ^ 149 * 2 ^ 149) = F32.fin r ∧ 0 ≤ r ∧ r ≤ 2 ^ 149
  rw [hmod]
  exact round_unit_interval _ (Int.emod_nonneg _ (ne_of_gt hp)) (Int.emod_lt_of_pos _ hp)

/-- Claim C9, amended. For image dimensions `1 ≤ dim (i) ≤ 2 ^ 23`: a freshly constructed
`Base` reports out of bounds; its `bounds[i]` are exactly `dim (i) - 0.5`; after `set (pos)` on
a `Base` with these bounds, `operator!` is true iff some coordinate has `pos[i] < -0.5` or
`pos[i] > bounds[i]`; and when it is false, `set` returns per axis the single precision
difference `pos[i] - floor (pos[i])`, which for a coordinate that is not a NaN is a finite
number of the closed interval `[0, 1]`. -/
theorem base_bounds_test (parent : InfoType) (b : Base) (pos : Point)
    (hdim : ∀ i, 1 ≤ parent.dim i ∧ parent.dim i ≤ 2 ^ 23)
    (hb : b.bounds = (Base.construct parent).bounds) :
    (Base.construct parent).op_not = true ∧
    (∀ i, b.bounds i = F32.fin ((2 * parent.dim i - 1) * 2 ^ 148)) ∧
    ((b.set pos).1.op_not = true ↔
      ∃ i, F32.lt (pos i) F32.neg_half = true ∨ F32.gt (pos i) (b.bounds i) = true) ∧
    ((b.set pos).1.bounds = b.bounds) ∧
    ((b.set pos).1.op_not = false →
      ∀ i, (b.set pos).2 i = F32.sub (pos i) (F32.floor (pos i)) ∧
        (pos i ≠ F32.nan →
          ∃ r : Int, (b.set pos).2 i = F32.fin r ∧ 0 ≤ r ∧ r ≤ 2 ^ 149)) := by
  have hbounds : ∀ i, b.bounds i = F32.fin ((2 * parent.dim i - 1) * 2 ^ 148) := by
    intro i
    rw [hb]
    exact of_int_minus_half_exact (parent.dim i) (hdim i).1 (hdim i).2
  refine ⟨rfl, hbounds, set_out_of_bounds_iff b pos, ?_, fun hin i => ?_⟩
  · unfold Base.set
    split <;> rfl
  · have hpt := set_in_bounds_point b pos hin
    refine ⟨by rw [hpt], fun hnan => ?_⟩
    rw [hpt]
    have hnot : ¬ ∃ j, F32.lt (pos j) F32.neg_half = true ∨
        F32.gt (pos j) (b.bounds j) = true := by
      intro hex
      have := (set_out_of_bounds_iff b pos).mpr hex
      rw [hin] at this
      exact absurd this (by decide)
    have hlow : ¬ F32.lt (pos i) F32.neg_half = true := fun h => hnot ⟨i, Or.inl h⟩
    have hhigh : ¬ F32.gt (pos i) (b.bounds i) = true := fun h => hnot ⟨i, Or.inr h⟩
    rw [hbounds i] at hhigh
    show ∃ r : Int, F32.sub (pos i) (F32.floor (pos i)) = F32.fin r ∧ 0 ≤ r ∧ r ≤ 2 ^ 149
    cases hp : pos i with
    | nan => exact absurd hp hnan
    | inf neg =>
      cases neg with
      | true => rw [hp] at hlow; exact absurd rfl hlow
      | false => rw [hp] at hhigh; exact absurd rfl hhigh
    | fin k => exact sub_floor_unit_interval k

/-- Worked example for C9: in a 10 x 10 x 10 image the position `(0.25, 1.5, 9.5)` is in
bounds and `set` returns the offsets `(0.25, 0.5, 0.5)`. -/
theorem base_bounds_test_example :
    ((Base.construct example_image).set pos_inside).1.op_not = false ∧
    ((Base.construct example_image).set pos_inside).2 0 = F32.fin (2 ^ 147) ∧
    ((Base.construct example_image).set pos_inside).2 1 = F32.fin (2 ^ 148) ∧
    ((Base.construct example_image).set pos_inside).2 2 = F32.fin (2 ^ 148) ∧
    ∀ i, ∃ r : Int, ((Base.construct example_image).set pos_inside).2 i = F32.fin r ∧
      0 ≤ r ∧ r ≤ 2 ^ 149 := by
  have h := base_bounds_test example_image (Base.construct example_image) pos_inside
    (fun _ => ⟨(by decide : (1 : Int) ≤ 10), (by decide : (10 : Int) ≤ 2 ^ 23)⟩) rfl
  have hin : ((Base.construct example_image).set pos_inside).1.op_not = false := by decide!
  refine ⟨hin, by decide!, by decide!, by decide!, fun i => ?_⟩
  refine (h.2.2.2.2 hin i).2 ?_
  fin_cases i <;> decide

/-- Counterexample to C9 as stated. In a 10 x 10 x 10 image the position `(-2 ^ (-30), 0, 0)`
is in bounds and the offset returned for the first axis is exactly `1`, outside `[0, 1)`; the
position `(NaN, 0, 0)` is in bounds too, with a NaN offset; and for a first dimension of
`2 ^ 24 + 2` the position `(16777218, 0, 0)` is in bounds although `16777218` exceeds
`dim (0) - 0.5 = 16777217.5`, because `bounds[0]` is rounded to `16777218`. -/
theorem base_bounds_test_counterexample :
    (((Base.construct example_image).set pos_tiny).1.op_not = false ∧
      ((Base.construct example_image).set pos_tiny).2 0 = F32.one) ∧
    (((Base.construct example_image).set pos_nan).1.op_not = false ∧
      ((Base.construct example_image).set pos_nan).2 0 = F32.nan) ∧
    (((Base.construct long_image).set pos_far).1.op_not = false ∧
      pos_far 0 = F32.fin (16777218 * 2 ^ 149) ∧
      (2 * long_image.dim 0 - 1) * 2 ^ 148 < 16777218 * 2 ^ 149 ∧
      (Base.construct long_image).bounds 0 = F32.fin (16777218 * 2 ^ 149)) := by
  refine ⟨⟨?_, ?_⟩, ⟨?_, ?_⟩, ⟨?_, ?_, ?_, ?_⟩⟩ <;> decide!

end MR
